import Mathlib

/-!
# Verification of the `demod_fm` FM demodulator

Shallow embedding of `src/lib.rs`: the struct `FmDemod { gain: f32, prev: Complex32 }`,
its constructor `FmDemod::new` and its per-sample transform `FmDemod::feed`.

Modelling conventions:
* `f32` values are modelled as real numbers (exact arithmetic; IEEE rounding is not
  modelled).  The special-value behaviour of `f32` (infinities, NaN) needed for the
  zero-deviation analysis is modelled separately by the type `F32` below.
* `Complex32` is modelled as `ℂ`; `num::Complex32::arg`, which computes
  `im.atan2(re)`, is modelled by `Complex.arg` (Mathlib's argument, with range
  `(-π, π]`), and the theorem `Complex_arg_eq_atan2` proves that it agrees with the
  mathematical two-argument arctangent everywhere, `0` at the origin included.
* the `u32` parameters of `FmDemod::new` are modelled as `ℕ`; `sample_rate / 2` is
  `u32` integer division, which coincides with `ℕ` division (no overflow is possible).
* the `assert!` in `FmDemod::new` is modelled by returning `Option`: `none` is the
  panic.
* `&mut self` state mutation is modelled by explicit state passing: `feed` returns
  the output value together with the updated state.
-/

open Real

/-- The demodulator state, `struct FmDemod` in `src/lib.rs`:
`gain` is the reciprocal of the angular frequency deviation (an `f32`),
`prev` is the previous sample `p[t-1]` (a `Complex32`). -/
structure FmDemod where
  gain : ℝ
  prev : ℂ

/-- Constructor `FmDemod::new(deviation, sample_rate)`:
`assert!(deviation <= sample_rate / 2)` (modelled: `none` on panic), then
`gain = (2.0 * PI * deviation as f32 / sample_rate as f32).recip()` and
`prev = Complex32::new(0.0, 0.0)`. -/
noncomputable def FmDemod.new (deviation sample_rate : ℕ) : Option FmDemod :=
  if deviation ≤ sample_rate / 2 then
    some { gain := (2 * π * deviation / sample_rate)⁻¹, prev := 0 }
  else
    none

/-- Transform `FmDemod::feed(sample)`:
`next = (sample * self.prev.conj()).arg() * self.gain; self.prev = sample; next`.
Returns the output and the updated state. -/
noncomputable def FmDemod.feed (st : FmDemod) (sample : ℂ) : ℝ × FmDemod :=
  ((sample * (starRingEnd ℂ) st.prev).arg * st.gain, { st with prev := sample })

/-- Feeding a whole sample sequence in order, collecting the outputs:
the iterated use of `FmDemod::feed` made by the callers (and by the crate's test). -/
noncomputable def FmDemod.feedAll (st : FmDemod) : List ℂ → List ℝ × FmDemod
  | [] => ([], st)
  | s :: rest =>
    let r := st.feed s
    let t := r.2.feedAll rest
    (r.1 :: t.1, t.2)

/-- The mathematical two-argument arctangent: the function computed by `f32::atan2`
(used by `num::Complex32::arg` as `im.atan2(re)`), on exact reals and with the
convention `atan2 0 0 = 0`; IEEE signed zero is not modelled. -/
noncomputable def atan2 (y x : ℝ) : ℝ :=
  if 0 < x then arctan (y / x)
  else if x = 0 then
    if 0 < y then π / 2 else if y < 0 then -(π / 2) else 0
  else if 0 ≤ y then arctan (y / x) + π
  else arctan (y / x) - π

/-- Angular frequency deviation `angdev = 2.0 * PI * dev as f32 / samprate as f32` of
the crate's test (`dev = 4000`, `samprate = 48000`). -/
noncomputable def angdev : ℝ := 2 * π * 4000 / 48000

/-- The data symbols encoded by the crate's test. -/
def testData : List ℤ := [-1, 1, 1, -1, 1, -1]

/-- Two samples per symbol: the test's inner loop `for _ in 0..2`. -/
def twoPerSymbol : List ℤ → List ℤ
  | [] => []
  | s :: rest => s :: s :: twoPerSymbol rest

/-- Riemann-sum integral approximation of the test: `accum += angdev * sym as f32`
at each sample, collecting the accumulated phases. -/
noncomputable def stepPhases (accum : ℝ) : List ℤ → List ℝ
  | [] => []
  | s :: rest => (accum + angdev * (s : ℝ)) :: stepPhases (accum + angdev * (s : ℝ)) rest

/-- One generated sample `Complex32::new(accum.cos(), accum.sin())`. -/
noncomputable def cisSample (a : ℝ) : ℂ := ⟨Real.cos a, Real.sin a⟩

/-- The generated received I/Q signal `sig` of the crate's test. -/
noncomputable def testSig : List ℂ := (stepPhases 0 (twoPerSymbol testData)).map cisSample

/-- Consecutive phase differences of a phase list, relative to a starting phase. -/
noncomputable def phaseDiffs (b : ℝ) : List ℝ → List ℝ
  | [] => []
  | a :: rest => (a - b) :: phaseDiffs a rest

/-- Every consecutive phase difference lies in the principal range `(-π, π]`. -/
def diffsInRange (b : ℝ) : List ℝ → Prop
  | [] => True
  | a :: rest => (-π < a - b ∧ a - b ≤ π) ∧ diffsInRange a rest

/-- IEEE-754 value model for the `f32` computations in `FmDemod::new` whose result is
not finite: a finite value carries its exact real value (rounding is not modelled,
nor is signed zero, neither of which arises on the inputs analysed), plus the two
infinities and NaN. -/
inductive F32 where
  | fin : ℝ → F32
  | pinf : F32
  | ninf : F32
  | nan : F32

/-- Whether an `f32` value is finite (`f32::is_finite`). -/
def F32.isFinite : F32 → Bool
  | fin _ => true
  | _ => false

/-- IEEE-754 multiplication on the modelled `f32` values: finite times finite is
exact; a zero times an infinity, and anything times NaN, is NaN. -/
noncomputable def F32.mul : F32 → F32 → F32
  | fin x, fin y => fin (x * y)
  | fin x, pinf => if 0 < x then pinf else if x < 0 then ninf else nan
  | fin x, ninf => if 0 < x then ninf else if x < 0 then pinf else nan
  | pinf, fin y => if 0 < y then pinf else if y < 0 then ninf else nan
  | ninf, fin y => if 0 < y then ninf else if y < 0 then pinf else nan
  | pinf, pinf => pinf
  | pinf, ninf => ninf
  | ninf, pinf => ninf
  | ninf, ninf => pinf
  | fin _, nan => nan
  | pinf, nan => nan
  | ninf, nan => nan
  | nan, _ => nan

/-- IEEE-754 division on the modelled `f32` values: a nonzero finite value divided by
zero is a signed infinity, `0.0 / 0.0` is NaN, a finite value divided by an infinity
is zero (signed zero is collapsed to `0`), and NaN propagates. -/
noncomputable def F32.div : F32 → F32 → F32
  | fin x, fin y =>
    if y = 0 then (if 0 < x then pinf else if x < 0 then ninf else nan)
    else fin (x / y)
  | fin _, pinf => fin 0
  | fin _, ninf => fin 0
  | pinf, fin y => if 0 ≤ y then pinf else ninf
  | ninf, fin y => if 0 ≤ y then ninf else pinf
  | pinf, pinf => nan
  | pinf, ninf => nan
  | ninf, pinf => nan
  | ninf, ninf => nan
  | fin _, nan => nan
  | pinf, nan => nan
  | ninf, nan => nan
  | nan, _ => nan

/-- The gain computation of `FmDemod::new` over the `f32` value model:
`(2.0 * PI * deviation as f32 / sample_rate as f32).recip()`, where `recip` is
`1.0 / self`. -/
noncomputable def gainF (deviation sample_rate : ℕ) : F32 :=
  F32.div (F32.fin 1)
    (F32.div (F32.mul (F32.fin (2 * π)) (F32.fin deviation)) (F32.fin sample_rate))

/-- The output of `FmDemod::feed` over the `f32` value model, for finite samples:
the complex product of finite samples is finite and `atan2` of finite components is
a finite real, so only the final multiplication by the stored gain is carried out in
the value model. -/
noncomputable def feedOutF (g : F32) (sample prev : ℂ) : F32 :=
  F32.mul (F32.fin (sample * (starRingEnd ℂ) prev).arg) g

/-- The gain field is never written by `feed`, over any sample sequence. -/
theorem FmDemod.feedAll_gain (st : FmDemod) (samples : List ℂ) :
    (st.feedAll samples).2.gain = st.gain := by
  induction samples generalizing st with
  | nil => rfl
  | cons s rest ih => simpa [FmDemod.feedAll, FmDemod.feed] using ih { st with prev := s }

/-- Mathlib's complex argument is exactly the two-argument arctangent of the
imaginary over the real component, so `Complex.arg` faithfully models
`num::Complex32::arg`. -/
theorem Complex_arg_eq_atan2 (z : ℂ) : z.arg = atan2 z.im z.re := by
  rcases lt_trichotomy 0 z.re with hre | hre | hre
  · rw [atan2, if_pos hre]
    have hb : |z.arg| < π / 2 := Complex.abs_arg_lt_pi_div_two_iff.2 (Or.inl hre)
    rw [abs_lt] at hb
    rw [← Complex.tan_arg z, Real.arctan_tan hb.1 hb.2]
  · rw [atan2, if_neg (by rw [← hre]; exact lt_irrefl 0), if_pos hre.symm]
    rcases lt_trichotomy 0 z.im with him | him | him
    · rw [if_pos him]
      exact Complex.arg_eq_pi_div_two_iff.2 ⟨hre.symm, him⟩
    · rw [if_neg (by rw [← him]; exact lt_irrefl 0), if_neg (by rw [← him]; exact lt_irrefl 0)]
      have : z = 0 := Complex.ext hre.symm him.symm
      rw [this, Complex.arg_zero]
    · rw [if_neg (not_lt.2 him.le), if_pos him]
      exact Complex.arg_eq_neg_pi_div_two_iff.2 ⟨hre.symm, him⟩
  · rw [atan2, if_neg (not_lt.2 hre.le), if_neg (ne_of_lt hre)]
    rcases lt_trichotomy 0 z.im with him | him | him
    · rw [if_pos him.le]
      have hneg : Complex.arg (-z) = Complex.arg z - π :=
        Complex.arg_neg_eq_arg_sub_pi_of_im_pos him
      have hre' : 0 < (-z).re := by simpa using hre
      have hb : |(-z).arg| < π / 2 := Complex.abs_arg_lt_pi_div_two_iff.2 (Or.inl hre')
      rw [abs_lt] at hb
      have harctan : (-z).arg = arctan ((-z).im / (-z).re) := by
        rw [← Complex.tan_arg (-z), Real.arctan_tan hb.1 hb.2]
      have hdiv : (-z).im / (-z).re = z.im / z.re := by
        simp [neg_div_neg_eq]
      rw [hdiv] at harctan
      rw [hneg] at harctan
      linarith [harctan]
    · rw [if_pos him.le]
      have : z.arg = π := Complex.arg_eq_pi_iff.2 ⟨hre, him.symm⟩
      rw [this, ← him]
      simp
    · rw [if_neg (not_le.2 him)]
      have hneg : Complex.arg (-z) = Complex.arg z + π :=
        Complex.arg_neg_eq_arg_add_pi_of_im_neg him
      have hre' : 0 < (-z).re := by simpa using hre
      have hb : |(-z).arg| < π / 2 := Complex.abs_arg_lt_pi_div_two_iff.2 (Or.inl hre')
      rw [abs_lt] at hb
      have harctan : (-z).arg = arctan ((-z).im / (-z).re) := by
        rw [← Complex.tan_arg (-z), Real.arctan_tan hb.1 hb.2]
      have hdiv : (-z).im / (-z).re = z.im / z.re := by
        simp [neg_div_neg_eq]
      rw [hdiv] at harctan
      linarith [hneg, harctan]

/-- Scale invariance, generalized: if the stored previous sample is scaled by a
positive real `a` and every fed sample is scaled by a positive real `c`, the output
sequence is unchanged — each per-step product is the original one scaled by the
positive real `c * a` (first step) or `c * c` (later steps), and `Complex.arg` is
invariant under positive real scaling. -/
theorem FmDemod.feedAll_smul (g c a : ℝ) (p : ℂ) (samples : List ℂ)
    (hc : 0 < c) (ha : 0 < a) :
    (FmDemod.feedAll { gain := g, prev := (a : ℂ) * p }
        (samples.map fun s => (c : ℂ) * s)).1
      = (FmDemod.feedAll { gain := g, prev := p } samples).1 := by
  induction samples generalizing a p with
  | nil => rfl
  | cons s rest ih =>
    have hprod : ((c : ℂ) * s) * (starRingEnd ℂ) ((a : ℂ) * p)
        = ((c * a : ℝ) : ℂ) * (s * (starRingEnd ℂ) p) := by
      simp [map_mul, Complex.conj_ofReal]
      ring
    have harg : (((c : ℂ) * s) * (starRingEnd ℂ) ((a : ℂ) * p)).arg
        = (s * (starRingEnd ℂ) p).arg := by
      rw [hprod]
      exact Complex.arg_real_mul _ (mul_pos hc ha)
    simp only [List.map_cons, FmDemod.feedAll, FmDemod.feed, harg]
    simpa using ih c s hc

/-- The argument of `cis a * conj (cis b)` is the phase difference `a - b` whenever
that difference lies in the principal range `(-π, π]`. -/
theorem arg_cisSample_mul_conj (a b : ℝ) (h1 : -π < a - b) (h2 : a - b ≤ π) :
    (cisSample a * (starRingEnd ℂ) (cisSample b)).arg = a - b := by
  have hmul : cisSample a * (starRingEnd ℂ) (cisSample b) = cisSample (a - b) := by
    apply Complex.ext
    · simp only [cisSample, Complex.mul_re, Complex.conj_re, Complex.conj_im, Real.cos_sub]
      ring
    · simp only [cisSample, Complex.mul_im, Complex.conj_re, Complex.conj_im, Real.sin_sub]
      ring
  have hcis : cisSample (a - b)
      = (Real.cos (a - b) : ℂ) + (Real.sin (a - b) : ℂ) * Complex.I := by
    rw [cisSample, Complex.mk_eq_add_mul_I]
  rw [hmul, hcis, Complex.ofReal_cos, Complex.ofReal_sin]
  exact Complex.arg_cos_add_sin_mul_I ⟨h1, h2⟩

/-- Feeding a list of unit-circle samples from a state primed with phase `b`: each
output is the corresponding wrapped phase difference times the gain. -/
theorem FmDemod.feedAll_cisSamples (g b : ℝ) (ph : List ℝ) (h : diffsInRange b ph) :
    (FmDemod.feedAll { gain := g, prev := cisSample b } (ph.map cisSample)).1
      = (phaseDiffs b ph).map (fun d => d * g) := by
  induction ph generalizing b with
  | nil => rfl
  | cons a rest ih =>
    obtain ⟨⟨h1, h2⟩, hrest⟩ := h
    simp only [List.map_cons, FmDemod.feedAll, FmDemod.feed, phaseDiffs,
      arg_cisSample_mul_conj a b h1 h2]
    simpa using ih a hrest

/-- Feeding unit-circle samples from a freshly constructed state (`prev = 0`) and
discarding the first output: the remaining outputs are the wrapped consecutive phase
differences times the gain. -/
theorem FmDemod.feedAll_cisSamples_from_zero (g b : ℝ) (ph : List ℝ)
    (h : diffsInRange b ph) :
    ((FmDemod.feedAll { gain := g, prev := 0 } ((b :: ph).map cisSample)).1).tail
      = (phaseDiffs b ph).map (fun d => d * g) := by
  simp only [List.map_cons, FmDemod.feedAll, FmDemod.feed, List.tail_cons]
  exact FmDemod.feedAll_cisSamples g b ph h

/-- The angular frequency deviation of the test is positive. -/
theorem angdev_pos : 0 < angdev := by
  rw [angdev]
  positivity

/-- A phase difference equal to `angdev` times a symbol, multiplied by the gain
`angdev⁻¹`, recovers the symbol. -/
theorem out_val (x y s : ℝ) (h : x - y = angdev * s) : (x - y) * angdev⁻¹ = s := by
  rw [h, mul_comm angdev s, mul_assoc, mul_inv_cancel₀ angdev_pos.ne', mul_one]

/-- A phase difference equal to `angdev` times a symbol in `[-1, 1]` lies in the
principal range `(-π, π]`. -/
theorem diff_in_range (x y s : ℝ) (h : x - y = angdev * s)
    (hs1 : -1 ≤ s) (hs2 : s ≤ 1) : -π < x - y ∧ x - y ≤ π := by
  have hδ : angdev = π * (1 / 6) := by rw [angdev]; ring
  rw [h, hδ]
  constructor <;> nlinarith [Real.pi_pos]

/-- C1: for every demodulator state and every complex sample, `feed` returns
`arg(sample * conj(prev)) * gain`, where the argument is the two-argument-arctangent
angle of the product, and the updated state's `prev` field equals the sample. -/
theorem feed_returns_arg_times_gain (st : FmDemod) (s : ℂ) :
    (st.feed s).1 = (s * (starRingEnd ℂ) st.prev).arg * st.gain
      ∧ (s * (starRingEnd ℂ) st.prev).arg
          = atan2 (s * (starRingEnd ℂ) st.prev).im (s * (starRingEnd ℂ) st.prev).re
      ∧ (st.feed s).2.prev = s :=
  ⟨rfl, Complex_arg_eq_atan2 _, rfl⟩

/-- C2: construction panics (modelled: returns `none`) exactly when
`deviation > sample_rate / 2` in `u32` integer division, and succeeds exactly when
`deviation ≤ sample_rate / 2` — in particular at `deviation = sample_rate / 2`. -/
theorem new_fails_iff_above_nyquist (deviation sample_rate : ℕ)
    (_hd : deviation < 2 ^ 32) (_hr : sample_rate < 2 ^ 32) :
    (FmDemod.new deviation sample_rate = none ↔ sample_rate / 2 < deviation)
      ∧ ((FmDemod.new deviation sample_rate).isSome ↔ deviation ≤ sample_rate / 2) := by
  rw [FmDemod.new]
  split_ifs with h
  · simp [h, not_lt.2 h]
  · simp [h, not_le.1 h]

/-- C2 witness at the boundary pair `(2, 4)` (`2 = 4 / 2`, accepted) packaged with
its `u32`-range hypotheses. -/
theorem new_fails_iff_above_nyquist_witness :
    (2 : ℕ) < 2 ^ 32 ∧ (4 : ℕ) < 2 ^ 32 ∧
      ((FmDemod.new 2 4 = none ↔ 4 / 2 < 2)
        ∧ ((FmDemod.new 2 4).isSome ↔ 2 ≤ 4 / 2)) :=
  ⟨by norm_num, by norm_num, new_fails_iff_above_nyquist 2 4 (by norm_num) (by norm_num)⟩

/-- C3: every accepted construction yields the state with
`gain = (2π · deviation / sample_rate)⁻¹` and `prev = 0`. -/
theorem new_gain_and_prev (deviation sample_rate : ℕ) (h : deviation ≤ sample_rate / 2) :
    FmDemod.new deviation sample_rate =
      some { gain := (2 * π * deviation / sample_rate)⁻¹, prev := 0 } := by
  rw [FmDemod.new, if_pos h]

/-- C3 witness at `(4000, 48000)`, the crate's test parameters. -/
theorem new_gain_and_prev_witness :
    (4000 : ℕ) ≤ 48000 / 2 ∧
      FmDemod.new 4000 48000 =
        some { gain := (2 * π * (4000 : ℕ) / (48000 : ℕ))⁻¹, prev := 0 } :=
  ⟨by norm_num, new_gain_and_prev 4000 48000 (by norm_num)⟩

/-- C4: whenever `0 < deviation ≤ sample_rate / 2`, the constructed gain is strictly
positive (and, being a real number of the exact model, finite), and this is preserved
by every sequence of `feed` calls, which never modify `gain`. -/
theorem gain_pos_and_preserved (deviation sample_rate : ℕ) (st : FmDemod)
    (hd : 0 < deviation) (hn : deviation ≤ sample_rate / 2)
    (hnew : FmDemod.new deviation sample_rate = some st) :
    0 < st.gain ∧ ∀ samples : List ℂ, (st.feedAll samples).2.gain = st.gain := by
  rw [FmDemod.new, if_pos hn] at hnew
  obtain rfl : _ = st := Option.some_injective _ hnew
  refine ⟨?_, fun samples => FmDemod.feedAll_gain _ samples⟩
  have hr : 0 < sample_rate := by
    rcases Nat.eq_zero_or_pos sample_rate with h0 | h0
    · subst h0; omega
    · exact h0
  have hdr : (0 : ℝ) < 2 * π * deviation / sample_rate := by
    apply div_pos
    · have : (0 : ℝ) < deviation := by exact_mod_cast hd
      positivity
    · exact_mod_cast hr
  exact inv_pos.2 hdr

/-- C4 witness at `(4000, 48000)` with the explicit constructed state. -/
theorem gain_pos_and_preserved_witness :
    (0 : ℕ) < 4000 ∧ (4000 : ℕ) ≤ 48000 / 2 ∧
      FmDemod.new 4000 48000 =
          some { gain := (2 * π * (4000 : ℕ) / (48000 : ℕ))⁻¹, prev := 0 } ∧
      (0 < ((2 * π * (4000 : ℕ) / (48000 : ℕ))⁻¹ : ℝ) ∧
        ∀ samples : List ℂ,
          (FmDemod.feedAll { gain := (2 * π * (4000 : ℕ) / (48000 : ℕ))⁻¹, prev := 0 }
              samples).2.gain
            = ({ gain := (2 * π * (4000 : ℕ) / (48000 : ℕ))⁻¹, prev := 0 } : FmDemod).gain) :=
  ⟨by norm_num, by norm_num, by rw [FmDemod.new, if_pos (by norm_num)],
    gain_pos_and_preserved 4000 48000 _ (by norm_num) (by norm_num)
      (by rw [FmDemod.new, if_pos (by norm_num)])⟩

/-- C5: `feed` is a total function (the embedding returns a value for every state and
every sample, `arg` being well-defined with `arg 0 = 0`); in particular the very first
call after construction multiplies by the zero previous sample, so its output is
`arg 0 * gain = 0`, and `prev` is updated to the fed sample. -/
theorem feed_first_call_total (deviation sample_rate : ℕ) (st : FmDemod)
    (hnew : FmDemod.new deviation sample_rate = some st) (s : ℂ) :
    (st.feed s).1 = 0 ∧ (st.feed s).2.prev = s := by
  rw [FmDemod.new] at hnew
  split_ifs at hnew with h
  · obtain rfl : _ = st := Option.some_injective _ hnew
    constructor
    · show (s * (starRingEnd ℂ) (0 : ℂ)).arg * _ = 0
      simp
    · rfl

/-- C5 witness: the first call after `new 4000 48000`, fed the sample `3 + 4i`
(and the zero sample is likewise accepted: totality is over all of `ℂ`). -/
theorem feed_first_call_total_witness :
    FmDemod.new 4000 48000 =
        some { gain := (2 * π * (4000 : ℕ) / (48000 : ℕ))⁻¹, prev := 0 } ∧
      (FmDemod.feed { gain := (2 * π * (4000 : ℕ) / (48000 : ℕ))⁻¹, prev := 0 } ⟨3, 4⟩).1 = 0 ∧
      (FmDemod.feed { gain := (2 * π * (4000 : ℕ) / (48000 : ℕ))⁻¹, prev := 0 } ⟨3, 4⟩).2.prev
        = ⟨3, 4⟩ :=
  ⟨by rw [FmDemod.new, if_pos (by norm_num)],
    feed_first_call_total 4000 48000 _ (by rw [FmDemod.new, if_pos (by norm_num)]) ⟨3, 4⟩⟩

/-- C6: `feed` mutates only `prev` — the post-state is exactly the pre-state with
`prev` replaced by the sample, so `gain` is unchanged — and over any sequence of
`feed` calls the `gain` field never changes. -/
theorem feed_frame_only_prev (st : FmDemod) (s : ℂ) (samples : List ℂ) :
    (st.feed s).2 = { gain := st.gain, prev := s }
      ∧ (st.feedAll samples).2.gain = st.gain :=
  ⟨rfl, FmDemod.feedAll_gain st samples⟩

/-- C7: end-to-end scenario of the crate's test: construct with deviation 4000 and
sample rate 48000, generate the 12 samples from the symbols `[-1, 1, 1, -1, 1, -1]`
at 2 samples per symbol by Riemann-sum phase accumulation, feed them in order and
discard the first output; the remaining outputs are exactly
`[-1, 1, 1, 1, 1, -1, -1, 1, 1, -1, -1]`. -/
theorem round_trip_recovery :
    (((FmDemod.new 4000 48000).getD { gain := 0, prev := 0 }).feedAll testSig).1.tail
      = [-1, 1, 1, 1, 1, -1, -1, 1, 1, -1, -1] := by
  have hnew : (FmDemod.new 4000 48000).getD { gain := 0, prev := 0 }
      = { gain := angdev⁻¹, prev := 0 } := by
    rw [FmDemod.new, if_pos (by norm_num : (4000 : ℕ) ≤ 48000 / 2), Option.getD_some]
    simp only [FmDemod.mk.injEq, angdev]
    norm_num
  rw [hnew, show testSig = (stepPhases 0 (twoPerSymbol testData)).map cisSample from rfl]
  simp only [testData, twoPerSymbol, stepPhases]
  rw [FmDemod.feedAll_cisSamples_from_zero]
  · simp only [phaseDiffs, List.map_cons, List.map_nil, List.cons.injEq, and_true]
    repeat' apply And.intro
    all_goals exact out_val _ _ _ (by push_cast; ring)
  · simp only [diffsInRange, and_true]
    refine ⟨?_, ?_, ?_, ?_, ?_, ?_, ?_, ?_, ?_, ?_, ?_⟩
    · exact diff_in_range _ _ (-1) (by push_cast; ring) (by norm_num) (by norm_num)
    · exact diff_in_range _ _ 1 (by push_cast; ring) (by norm_num) (by norm_num)
    · exact diff_in_range _ _ 1 (by push_cast; ring) (by norm_num) (by norm_num)
    · exact diff_in_range _ _ 1 (by push_cast; ring) (by norm_num) (by norm_num)
    · exact diff_in_range _ _ 1 (by push_cast; ring) (by norm_num) (by norm_num)
    · exact diff_in_range _ _ (-1) (by push_cast; ring) (by norm_num) (by norm_num)
    · exact diff_in_range _ _ (-1) (by push_cast; ring) (by norm_num) (by norm_num)
    · exact diff_in_range _ _ 1 (by push_cast; ring) (by norm_num) (by norm_num)
    · exact diff_in_range _ _ 1 (by push_cast; ring) (by norm_num) (by norm_num)
    · exact diff_in_range _ _ (-1) (by push_cast; ring) (by norm_num) (by norm_num)
    · exact diff_in_range _ _ (-1) (by push_cast; ring) (by norm_num) (by norm_num)

/-- C8: for every demodulator state, every positive real `c` and every sample
sequence, feeding the sequence with every sample multiplied by `c` produces exactly
the same output sequence as feeding the original sequence. -/
theorem scale_invariance (st : FmDemod) (c : ℝ) (hc : 0 < c) (samples : List ℂ) :
    (st.feedAll (samples.map fun s => (c : ℂ) * s)).1 = (st.feedAll samples).1 := by
  have h := FmDemod.feedAll_smul st.gain c 1 st.prev samples hc one_pos
  simpa using h

/-- C8 witness: scaling the two-sample sequence `[1, i]` by `c = 2` from the state
`⟨gain 1, prev 0⟩`. -/
theorem scale_invariance_witness :
    (0 : ℝ) < 2 ∧
      (FmDemod.feedAll { gain := 1, prev := 0 }
          (([1, Complex.I] : List ℂ).map fun s => ((2 : ℝ) : ℂ) * s)).1
        = (FmDemod.feedAll { gain := 1, prev := 0 } [1, Complex.I]).1 :=
  ⟨by norm_num, scale_invariance { gain := 1, prev := 0 } 2 (by norm_num) [1, Complex.I]⟩

/-- C9: feeding `p1`, then `p2`, then `p1` again returns the demodulator to exactly
the state it had after the first `p1` (same `gain`, same `prev`), so feeding `p2`
once more reproduces the original `p1 → p2` output: the output depends only on the
immediately preceding sample and the gain. -/
theorem feed_markov_cycle (st : FmDemod) (p1 p2 : ℂ) :
    (((st.feed p1).2.feed p2).2.feed p1).2 = (st.feed p1).2
      ∧ ((((st.feed p1).2.feed p2).2.feed p1).2.feed p2).1 = ((st.feed p1).2.feed p2).1 :=
  ⟨rfl, rfl⟩

/-- C10: the constructor does not require a positive deviation: `new(0, sample_rate)`
always passes the assert (`0 ≤ sample_rate / 2`), the resulting `f32` gain is not
finite — `+∞` when `sample_rate > 0` (from `1.0 / 0.0`) and NaN when
`sample_rate = 0` (from `0.0 / 0.0`) — and every subsequent `feed` output on finite
complex inputs is non-finite; the positive-finite-gain invariant thus needs the
unchecked precondition `deviation > 0`. -/
theorem new_zero_deviation_gain_not_finite (sample_rate : ℕ) :
    (FmDemod.new 0 sample_rate).isSome = true
      ∧ gainF 0 sample_rate = (if 0 < sample_rate then F32.pinf else F32.nan)
      ∧ (gainF 0 sample_rate).isFinite = false
      ∧ ∀ sample prev : ℂ, (feedOutF (gainF 0 sample_rate) sample prev).isFinite = false := by
  have hsome : (FmDemod.new 0 sample_rate).isSome = true := by
    rw [FmDemod.new, if_pos (Nat.zero_le _)]
    rfl
  have hgain : gainF 0 sample_rate = (if 0 < sample_rate then F32.pinf else F32.nan) := by
    rw [gainF]
    rcases Nat.eq_zero_or_pos sample_rate with h0 | h0
    · subst h0
      rw [if_neg (lt_irrefl 0)]
      simp [F32.mul, F32.div]
    · rw [if_pos h0]
      have hr : ((sample_rate : ℝ)) ≠ 0 := by
        exact_mod_cast h0.ne'
      simp [F32.mul, F32.div, hr]
  refine ⟨hsome, hgain, ?_, ?_⟩
  · rw [hgain]
    split_ifs <;> rfl
  · intro sample prev
    rw [feedOutF, hgain]
    split_ifs with h
    · rw [F32.mul]
      split_ifs <;> rfl
    · rfl
